import Mathlib

/-! Peloton sequence catalog (`src/include/catalog/sequence_catalog.h`).

A shallow embedding of the inline code of `SequenceCatalogObject` and `SequenceCatalog`:
the current-value cache with its two reverse indexes, the argument validation, the oid
allocator and the current-value accessor, followed by theorems about them.

Conventions of the embedding:
* `int64_t` values are `Int`; `size_t` hash keys and `oid_t` identifiers are `Nat`
  (the oid width is a parameter, and the arithmetic on oids is reduced modulo `2 ^ width`);
* a `std::unordered_map<K, V>` is a partial function `K → Option V` (the code never iterates
  over a map, so the iteration order plays no role);
* a `std::vector<size_t>` is a `List Nat`, `push_back` appends at the end;
* `boost::hash<std::tuple<std::string, std::string>>` is a parameter `key_hash`;
* a member function that mutates the catalog takes the catalog and returns the new one.
-/

namespace peloton.catalog

/-! ## `std::unordered_map` -/

/-- A `std::unordered_map<K, V>`: the value mapped to each key, `none` where the key is absent. -/
abbrev UnorderedMap (K V : Type) := K → Option V

namespace UnorderedMap

variable {K V : Type}

/-- The map of a default-constructed `std::unordered_map`. -/
def empty : UnorderedMap K V := fun _ => none

/-- Lookup `m.find(k)`: `none` stands for the iterator `m.end()`. -/
def find (m : UnorderedMap K V) (k : K) : Option V := m k

/-- Assignment `m[k] = v`: inserts the key or overwrites its value. -/
def assign [DecidableEq K] (m : UnorderedMap K V) (k : K) (v : V) : UnorderedMap K V :=
  fun k' => if k' = k then some v else m k'

/-- Removal `m.erase(k)`: no effect when the key is absent. -/
def erase [DecidableEq K] (m : UnorderedMap K V) (k : K) : UnorderedMap K V :=
  fun k' => if k' = k then none else m k'

/-- Subscript `m[k]` read as a value: an absent key is first inserted with the
default-constructed value `dflt`. Returns the mapped value and the map after the access. -/
def index [DecidableEq K] (dflt : V) (m : UnorderedMap K V) (k : K) : V × UnorderedMap K V :=
  match m k with
  | some v => (v, m)
  | none => (dflt, assign m k dflt)

/-- Statement `m[k].push_back(h)` on a map of vectors. -/
def push_back [DecidableEq K] (m : UnorderedMap K (List Nat)) (k : K) (h : Nat) :
    UnorderedMap K (List Nat) :=
  let r := index [] m k
  assign r.2 k (r.1 ++ [h])

end UnorderedMap

/-! ## Exceptions and call outcomes -/

/-- A `SequenceException`, one constructor per `throw` site of `ValidateSequenceArguments`,
carrying the values that the message formats. -/
inductive SequenceException where
  | minGreaterThanMax (seq_min seq_max : Int)
  | zeroIncrement
  | startLessThanMin (seq_start seq_min : Int)
  | startGreaterThanMax (seq_start seq_max : Int)
  deriving DecidableEq, Repr

/-- The message given to the `SequenceException` constructor at each `throw` site. -/
def SequenceException.what : SequenceException → String
  | .minGreaterThanMax seq_min seq_max =>
      s!"MINVALUE ({seq_min}) must be no greater than MAXVALUE ({seq_max})"
  | .zeroIncrement => "INCREMENT must not be zero"
  | .startLessThanMin seq_start seq_min =>
      s!"START value ({seq_start}) cannot be less than MINVALUE ({seq_min})"
  | .startGreaterThanMax seq_start seq_max =>
      s!"START value ({seq_start}) cannot be greater than MAXVALUE ({seq_max})"

/-- How a call of an accessor ends: it returns a value, it throws, or it runs into
undefined behaviour (the C++ gives the call no meaning). -/
inductive Outcome (α : Type) where
  | returned (v : α)
  | thrown (e : SequenceException)
  | undefinedBehaviour
  deriving DecidableEq, Repr

/-! ## `SequenceCatalogObject` -/

/-- The data members of `SequenceCatalogObject`. The transaction pointer `txn_` is kept as an
address. -/
structure SequenceCatalogObject where
  seq_oid : Nat
  db_oid : Nat
  seq_name : String
  seq_start : Int
  seq_increment : Int
  seq_max : Int
  seq_min : Int
  seq_cache : Int
  seq_cycle : Bool
  txn_ : Nat
  seq_prev_val : Int
  seq_curr_val : Int
  deriving DecidableEq, Repr

/-- The constructor of `SequenceCatalogObject`. Its initialiser list sets every member except
`seq_cache` and `seq_prev_val`; these two keep whatever the storage of the object held, given
here as `stale_cache` and `stale_prev_val`. -/
def SequenceCatalogObject.construct (seqoid dboid : Nat) (name : String)
    (seqstart seqincrement seqmax seqmin : Int) (seqcycle : Bool) (seqval : Int) (txn : Nat)
    (stale_cache stale_prev_val : Int) : SequenceCatalogObject :=
  { seq_oid := seqoid
    db_oid := dboid
    seq_name := name
    seq_start := seqstart
    seq_increment := seqincrement
    seq_max := seqmax
    seq_min := seqmin
    seq_cache := stale_cache
    seq_cycle := seqcycle
    txn_ := txn
    seq_prev_val := stale_prev_val
    seq_curr_val := seqval }

/-- Member `GetCurrVal`: `return seq_prev_val;`. -/
def SequenceCatalogObject.GetCurrVal (o : SequenceCatalogObject) : Outcome Int :=
  .returned o.seq_prev_val

/-- Member `SetCurrVal`: `seq_curr_val = curr_val;`. -/
def SequenceCatalogObject.SetCurrVal (o : SequenceCatalogObject) (curr_val : Int) :
    SequenceCatalogObject :=
  { o with seq_curr_val := curr_val }

/-- Member `SetCycle`: `seq_cycle = cycle;`. -/
def SequenceCatalogObject.SetCycle (o : SequenceCatalogObject) (cycle : Bool) :
    SequenceCatalogObject :=
  { o with seq_cycle := cycle }

/-! ## `SequenceCatalog`: the current-value cache -/

/-- The three private cache members of `SequenceCatalog`. -/
structure SequenceCatalog where
  sequence_currval_cache : UnorderedMap Nat Int
  namespace_hash_lists : UnorderedMap String (List Nat)
  sequence_name_hash_lists : UnorderedMap String (List Nat)

/-- The cache of a newly constructed catalog: three empty maps. -/
def SequenceCatalog.empty : SequenceCatalog :=
  { sequence_currval_cache := UnorderedMap.empty
    namespace_hash_lists := UnorderedMap.empty
    sequence_name_hash_lists := UnorderedMap.empty }

/-- Member `InsertCurrValCache`. -/
def InsertCurrValCache (key_hash : String × String → Nat) (c : SequenceCatalog)
    (session_namespace_ sequence_name : String) (currval : Int) : SequenceCatalog :=
  let hash_key := key_hash (session_namespace_, sequence_name)
  { sequence_currval_cache := c.sequence_currval_cache.assign hash_key currval
    namespace_hash_lists := c.namespace_hash_lists.push_back session_namespace_ hash_key
    sequence_name_hash_lists := c.sequence_name_hash_lists.push_back sequence_name hash_key }

/-- The loop `for (size_t hash_key : hash_keys) sequence_currval_cache.erase(hash_key);`. -/
def eraseAll (cache : UnorderedMap Nat Int) (hash_keys : List Nat) : UnorderedMap Nat Int :=
  hash_keys.foldl (fun m hash_key => m.erase hash_key) cache

/-- Member `EvictNamespaceCurrValCache`. -/
def EvictNamespaceCurrValCache (c : SequenceCatalog) (session_namespace_ : String) :
    SequenceCatalog :=
  let r := c.namespace_hash_lists.index [] session_namespace_
  let hash_keys := r.1
  { sequence_currval_cache := eraseAll c.sequence_currval_cache hash_keys
    namespace_hash_lists := r.2.erase session_namespace_
    sequence_name_hash_lists := c.sequence_name_hash_lists }

/-- Member `EvictSequenceNameCurrValCache`. -/
def EvictSequenceNameCurrValCache (c : SequenceCatalog) (sequence_name : String) :
    SequenceCatalog :=
  let r := c.sequence_name_hash_lists.index [] sequence_name
  let hash_keys := r.1
  { sequence_currval_cache := eraseAll c.sequence_currval_cache hash_keys
    namespace_hash_lists := c.namespace_hash_lists
    sequence_name_hash_lists := r.2.erase sequence_name }

/-- Member `CheckCachedCurrValExistence`. -/
def CheckCachedCurrValExistence (key_hash : String × String → Nat) (c : SequenceCatalog)
    (session_namespace_ sequence_name : String) : Bool :=
  let hash_key := key_hash (session_namespace_, sequence_name)
  if c.sequence_currval_cache.find hash_key ≠ none then true else false

/-- Member `GetCachedCurrVal`: `return sequence_currval_cache.find(hash_key)->second;`.
The iterator is dereferenced without a test against `end()`. -/
def GetCachedCurrVal (key_hash : String × String → Nat) (c : SequenceCatalog)
    (session_namespace_ sequence_name : String) : Outcome Int :=
  let hash_key := key_hash (session_namespace_, sequence_name)
  match c.sequence_currval_cache.find hash_key with
  | some second => .returned second
  | none => .undefinedBehaviour

/-! ## `SequenceCatalog`: oid allocation and validation -/

/-- Member `GetNextOid`: `return oid_++ | SEQUENCE_OID_MASK;`. The type `oid_t` and the macro
`SEQUENCE_OID_MASK` are declared in other headers: the bit width of `oid_t` and the mask are
parameters. Returns the identifier and the counter after the call. -/
def GetNextOid (oid_bits SEQUENCE_OID_MASK : Nat) (oid_ : Nat) : Nat × Nat :=
  ((oid_ ||| SEQUENCE_OID_MASK) % 2 ^ oid_bits, (oid_ + 1) % 2 ^ oid_bits)

/-- Member `ValidateSequenceArguments`: four tests in order, each throwing on failure. -/
def ValidateSequenceArguments (seq_increment seq_max seq_min seq_start : Int) :
    Except SequenceException Unit :=
  if seq_min > seq_max then
    .error (.minGreaterThanMax seq_min seq_max)
  else if seq_increment = 0 then
    .error .zeroIncrement
  else if seq_increment > 0 ∧ seq_start < seq_min then
    .error (.startLessThanMin seq_start seq_min)
  else if seq_increment < 0 ∧ seq_start > seq_max then
    .error (.startGreaterThanMax seq_start seq_max)
  else
    .ok ()

/-! ## Reachable cache states -/

/-- The cache states that a catalog can be in: the empty cache, and the result of any of the
three mutating members called on such a state. -/
inductive Reachable (key_hash : String × String → Nat) : SequenceCatalog → Prop where
  | empty : Reachable key_hash SequenceCatalog.empty
  | insert {c : SequenceCatalog} (session_namespace_ sequence_name : String) (currval : Int) :
      Reachable key_hash c →
      Reachable key_hash (InsertCurrValCache key_hash c session_namespace_ sequence_name currval)
  | evictNamespace {c : SequenceCatalog} (session_namespace_ : String) :
      Reachable key_hash c → Reachable key_hash (EvictNamespaceCurrValCache c session_namespace_)
  | evictSequenceName {c : SequenceCatalog} (sequence_name : String) :
      Reachable key_hash c → Reachable key_hash (EvictSequenceNameCurrValCache c sequence_name)

/-- The state after `InsertCurrValCache` has been called once for each value of `currvals`,
in order, always with the same namespace and sequence name. -/
def insertRepeatedly (key_hash : String × String → Nat) (c : SequenceCatalog)
    (session_namespace_ sequence_name : String) (currvals : List Int) : SequenceCatalog :=
  currvals.foldl
    (fun s currval => InsertCurrValCache key_hash s session_namespace_ sequence_name currval) c

/-- The vector that `m[k]` denotes: the mapped vector, or the empty one for an absent key. -/
def bucket (m : UnorderedMap String (List Nat)) (k : String) : List Nat :=
  (m.index [] k).1

/-! ## A collision-free key hash

The theorems about eviction assume a `key_hash` without collisions. `pairCode` is such a
function; it instantiates the parameter in concrete scenarios. -/

/-- Codes a list of numbers as one number. -/
def codeList : List Nat → Nat
  | [] => 0
  | a :: l => Nat.pair a (codeList l) + 1

/-- Codes a string through the code points of its characters. -/
def codeString (s : String) : Nat := codeList (s.data.map Char.toNat)

/-- Codes a pair of strings; distinct pairs get distinct codes. -/
def pairCode (p : String × String) : Nat := Nat.pair (codeString p.1) (codeString p.2)

/-- The cache of the eviction scenarios: `(nsA, seq1) = 5`, `(nsA, seq2) = 7` and
`(nsB, seq1) = 9` inserted into the empty cache, keyed by `pairCode`. -/
def scenarioCache : SequenceCatalog :=
  InsertCurrValCache pairCode
    (InsertCurrValCache pairCode
      (InsertCurrValCache pairCode SequenceCatalog.empty "nsA" "seq1" 5) "nsA" "seq2" 7)
    "nsB" "seq1" 9

/-- A key hash with collisions: it only looks at the lengths of the two strings. It instantiates
`key_hash` in the scenario of two pairs that share their key. -/
def lengthHash (p : String × String) : Nat := p.1.length + p.2.length

/-- The predicate that every cached key is reachable from both reverse indexes: each key of
`sequence_currval_cache` is the hash of a pair `(ns, nm)` and is listed both in
`namespace_hash_lists[ns]` and in `sequence_name_hash_lists[nm]`. -/
def CachedKeysListed (key_hash : String × String → Nat) (c : SequenceCatalog) : Prop :=
  ∀ h, c.sequence_currval_cache.find h ≠ none →
    ∃ ns nm, h = key_hash (ns, nm) ∧ h ∈ bucket c.namespace_hash_lists ns ∧
      h ∈ bucket c.sequence_name_hash_lists nm

/-- The cache after `(nsA, seq1) = 5` was inserted into the empty cache and the sequence name
`seq1` was evicted. -/
def evictedNameCache : SequenceCatalog :=
  EvictSequenceNameCurrValCache (InsertCurrValCache pairCode SequenceCatalog.empty "nsA" "seq1" 5)
    "seq1"

/-! ## The NextVal algorithm

The header only declares `SequenceCatalogObject::GetNextVal`; its body is in a source file that
is not part of the sources at hand. The definitions of this section follow the specification
of the algorithm. -/

/-- Modelled from the spec: the part of a sequence definition that the NextVal algorithm reads
and writes (start, increment, max, min, cycle, and the persisted current value, `none` while
no value has been allocated). It stands for the members of `SequenceCatalogObject` that the
missing body of `GetNextVal` works on. -/
structure SequenceDefinition where
  start : Int
  increment : Int
  max : Int
  min : Int
  cycle : Bool
  current : Option Int
  deriving DecidableEq, Repr

/-- Modelled from the spec: the failure SequenceExhausted of NextVal, which the missing body of
`GetNextVal` raises, with the bound that was reached. -/
inductive SequenceExhausted where
  | reachedMaximum (max : Int)
  | reachedMinimum (min : Int)
  deriving DecidableEq, Repr

/-- Modelled from the spec: the body of `SequenceCatalogObject::GetNextVal`, which the header
only declares. The policy of the specification: without a previous value the result is
`start`; otherwise the candidate is `previous + increment` (exact integer sum); a candidate
above `max` with a positive increment gives `min` when cycling and SequenceExhausted otherwise;
a candidate below `min` with a negative increment gives `max` when cycling and
SequenceExhausted otherwise; in every other case the result is the candidate. A result is
persisted as the new current value; a failure leaves the definition as it was. Returns the
outcome of the call and the definition after the call. -/
def GetNextVal (d : SequenceDefinition) : Except SequenceExhausted Int × SequenceDefinition :=
  match d.current with
  | none => (.ok d.start, { d with current := some d.start })
  | some previous =>
    let candidate := previous + d.increment
    if d.increment > 0 ∧ candidate > d.max then
      if d.cycle then (.ok d.min, { d with current := some d.min })
      else (.error (.reachedMaximum d.max), d)
    else if d.increment < 0 ∧ candidate < d.min then
      if d.cycle then (.ok d.max, { d with current := some d.max })
      else (.error (.reachedMinimum d.min), d)
    else (.ok candidate, { d with current := some candidate })

/-- The outcomes of `n` consecutive `GetNextVal` calls, in order, and the definition after
them. -/
def nextValRun (d : SequenceDefinition) :
    Nat → List (Except SequenceExhausted Int) × SequenceDefinition
  | 0 => ([], d)
  | n + 1 =>
    let r := GetNextVal d
    let rest := nextValRun r.2 n
    (r.1 :: rest.1, rest.2)

/-- A sequence on which NextVal was never called: the definition with the current value
unset. -/
def freshSequence (start increment max min : Int) (cycle : Bool) : SequenceDefinition :=
  { start := start, increment := increment, max := max, min := min, cycle := cycle,
    current := none }

/-- A sequence whose persisted current value is `current`. -/
def sequenceAt (start increment max min : Int) (cycle : Bool) (current : Int) :
    SequenceDefinition :=
  { start := start, increment := increment, max := max, min := min, cycle := cycle,
    current := some current }

/-! ## Lemmas on maps -/

section MapLemmas

variable {K V : Type} [DecidableEq K]

theorem find_assign_same (m : UnorderedMap K V) (k : K) (v : V) :
    (m.assign k v).find k = some v := by
  simp [UnorderedMap.find, UnorderedMap.assign]

theorem find_assign_other (m : UnorderedMap K V) {k k' : K} (v : V) (h : k' ≠ k) :
    (m.assign k v).find k' = m.find k' := by
  simp [UnorderedMap.find, UnorderedMap.assign, h]

theorem find_erase_same (m : UnorderedMap K V) (k : K) : (m.erase k).find k = none := by
  simp [UnorderedMap.find, UnorderedMap.erase]

theorem find_erase_other (m : UnorderedMap K V) {k k' : K} (h : k' ≠ k) :
    (m.erase k).find k' = m.find k' := by
  simp [UnorderedMap.find, UnorderedMap.erase, h]

end MapLemmas

/-! ## Validation -/

/-- C1: `ValidateSequenceArguments` throws a `SequenceException` exactly when `min > max`, or
`increment = 0`, or `increment > 0` with `start < min`, or `increment < 0` with `start > max`;
in every other case it returns normally. Stated for all integers, hence for all `int64_t`. -/
theorem ValidateSequenceArguments_throws_iff (seq_increment seq_max seq_min seq_start : Int) :
    ((∃ e, ValidateSequenceArguments seq_increment seq_max seq_min seq_start = .error e) ↔
      (seq_min > seq_max ∨ seq_increment = 0 ∨ (seq_increment > 0 ∧ seq_start < seq_min) ∨
        (seq_increment < 0 ∧ seq_start > seq_max))) ∧
    (¬ (seq_min > seq_max ∨ seq_increment = 0 ∨ (seq_increment > 0 ∧ seq_start < seq_min) ∨
        (seq_increment < 0 ∧ seq_start > seq_max)) →
      ValidateSequenceArguments seq_increment seq_max seq_min seq_start = .ok ()) := by
  unfold ValidateSequenceArguments
  by_cases h1 : seq_min > seq_max
  · simp [h1]
  by_cases h2 : seq_increment = 0
  · simp [h1, h2]
  by_cases h3 : seq_increment > 0 ∧ seq_start < seq_min
  · simp [h1, h2, h3]
  by_cases h4 : seq_increment < 0 ∧ seq_start > seq_max
  · simp [h1, h2, h3, h4]
  · simp only [if_neg h1, if_neg h2, if_neg h3, if_neg h4]
    constructor
    · constructor
      · rintro ⟨e, he⟩
        cases he
      · rintro (h | h | h | h)
        · exact absurd h h1
        · exact absurd h h2
        · exact absurd h h3
        · exact absurd h h4
    · intro _
      trivial

/-! ## The cache: effect of each member -/

theorem find_eraseAll_of_not_mem (hash_keys : List Nat) (cache : UnorderedMap Nat Int) (h : Nat)
    (hn : h ∉ hash_keys) : (eraseAll cache hash_keys).find h = cache.find h := by
  induction hash_keys generalizing cache with
  | nil => rfl
  | cons a l ih =>
    have ha : h ≠ a := fun e => hn (e ▸ List.mem_cons_self _ _)
    have hl : h ∉ l := fun e => hn (List.mem_cons_of_mem _ e)
    show (eraseAll (cache.erase a) l).find h = cache.find h
    rw [ih (cache.erase a) hl, find_erase_other cache ha]

theorem find_eraseAll_of_find_none (hash_keys : List Nat) (cache : UnorderedMap Nat Int)
    (h : Nat) (hn : cache.find h = none) : (eraseAll cache hash_keys).find h = none := by
  induction hash_keys generalizing cache with
  | nil => exact hn
  | cons a l ih =>
    show (eraseAll (cache.erase a) l).find h = none
    apply ih
    by_cases ha : h = a
    · rw [ha, find_erase_same]
    · rw [find_erase_other cache ha, hn]

theorem find_eraseAll_of_mem (hash_keys : List Nat) (cache : UnorderedMap Nat Int) (h : Nat)
    (hm : h ∈ hash_keys) : (eraseAll cache hash_keys).find h = none := by
  induction hash_keys generalizing cache with
  | nil => cases hm
  | cons a l ih =>
    show (eraseAll (cache.erase a) l).find h = none
    by_cases ha : h = a
    · exact find_eraseAll_of_find_none l _ h (by rw [ha, find_erase_same])
    · exact ih _ ((List.mem_cons.mp hm).resolve_left ha)

theorem bucket_eq (m : UnorderedMap String (List Nat)) (k : String) :
    bucket m k = (m.find k).getD [] := by
  unfold bucket UnorderedMap.index UnorderedMap.find
  cases m k <;> rfl

theorem find_push_back_same (m : UnorderedMap String (List Nat)) (k : String) (h : Nat) :
    (m.push_back k h).find k = some (bucket m k ++ [h]) := by
  unfold UnorderedMap.push_back
  exact find_assign_same _ _ _

theorem find_push_back_other (m : UnorderedMap String (List Nat)) {k k' : String} (h : Nat)
    (hk : k' ≠ k) : (m.push_back k h).find k' = m.find k' := by
  unfold UnorderedMap.push_back
  rw [find_assign_other _ _ hk]
  unfold UnorderedMap.index UnorderedMap.find
  cases hm : m k
  · simp [UnorderedMap.assign, hk]
  · rfl

theorem bucket_push_back_same (m : UnorderedMap String (List Nat)) (k : String) (h : Nat) :
    bucket (m.push_back k h) k = bucket m k ++ [h] := by
  rw [bucket_eq, find_push_back_same]
  rfl

theorem bucket_push_back_other (m : UnorderedMap String (List Nat)) {k k' : String} (h : Nat)
    (hk : k' ≠ k) : bucket (m.push_back k h) k' = bucket m k' := by
  rw [bucket_eq, bucket_eq, find_push_back_other m h hk]

theorem find_index_erase_same (m : UnorderedMap String (List Nat)) (k : String) :
    ((m.index [] k).2.erase k).find k = none :=
  find_erase_same _ _

theorem find_index_erase_other (m : UnorderedMap String (List Nat)) {k k' : String}
    (hk : k' ≠ k) : ((m.index [] k).2.erase k).find k' = m.find k' := by
  rw [find_erase_other _ hk]
  unfold UnorderedMap.index UnorderedMap.find
  cases hm : m k
  · simp [UnorderedMap.assign, hk]
  · rfl

theorem bucket_index_erase_same (m : UnorderedMap String (List Nat)) (k : String) :
    bucket ((m.index [] k).2.erase k) k = [] := by
  rw [bucket_eq, find_index_erase_same]
  rfl

theorem bucket_index_erase_other (m : UnorderedMap String (List Nat)) {k k' : String}
    (hk : k' ≠ k) : bucket ((m.index [] k).2.erase k) k' = bucket m k' := by
  rw [bucket_eq, bucket_eq, find_index_erase_other m hk]

theorem bucket_empty (k : String) : bucket UnorderedMap.empty k = [] := rfl

theorem cache_evictNamespace (c : SequenceCatalog) (ns : String) :
    (EvictNamespaceCurrValCache c ns).sequence_currval_cache =
      eraseAll c.sequence_currval_cache (bucket c.namespace_hash_lists ns) := rfl

theorem cache_evictSequenceName (c : SequenceCatalog) (nm : String) :
    (EvictSequenceNameCurrValCache c nm).sequence_currval_cache =
      eraseAll c.sequence_currval_cache (bucket c.sequence_name_hash_lists nm) := rfl

/-! ## Invariants of the reachable cache states -/

/-- Every key listed under a namespace was hashed from a pair with that namespace. -/
theorem namespace_bucket_keys {key_hash : String × String → Nat} {c : SequenceCatalog}
    (hr : Reachable key_hash c) (ns : String) (h : Nat)
    (hm : h ∈ bucket c.namespace_hash_lists ns) : ∃ nm, h = key_hash (ns, nm) := by
  induction hr with
  | empty => simp [SequenceCatalog.empty, bucket_empty] at hm
  | insert ns0 nm0 v _ ih =>
    by_cases hk : ns = ns0
    · subst hk
      simp only [InsertCurrValCache, bucket_push_back_same, List.mem_append,
        List.mem_singleton] at hm
      rcases hm with hm | hm
      · exact ih hm
      · exact ⟨nm0, hm⟩
    · simp only [InsertCurrValCache, bucket_push_back_other _ _ hk] at hm
      exact ih hm
  | evictNamespace ns0 _ ih =>
    by_cases hk : ns = ns0
    · subst hk
      simp [EvictNamespaceCurrValCache, bucket_index_erase_same] at hm
    · simp only [EvictNamespaceCurrValCache, bucket_index_erase_other _ hk] at hm
      exact ih hm
  | evictSequenceName nm0 _ ih => exact ih hm

/-- Every key listed under a sequence name was hashed from a pair with that name. -/
theorem sequence_name_bucket_keys {key_hash : String × String → Nat} {c : SequenceCatalog}
    (hr : Reachable key_hash c) (nm : String) (h : Nat)
    (hm : h ∈ bucket c.sequence_name_hash_lists nm) : ∃ ns, h = key_hash (ns, nm) := by
  induction hr with
  | empty => simp [SequenceCatalog.empty, bucket_empty] at hm
  | insert ns0 nm0 v _ ih =>
    by_cases hk : nm = nm0
    · subst hk
      simp only [InsertCurrValCache, bucket_push_back_same, List.mem_append,
        List.mem_singleton] at hm
      rcases hm with hm | hm
      · exact ih hm
      · exact ⟨ns0, hm⟩
    · simp only [InsertCurrValCache, bucket_push_back_other _ _ hk] at hm
      exact ih hm
  | evictNamespace ns0 _ ih => exact ih hm
  | evictSequenceName nm0 _ ih =>
    by_cases hk : nm = nm0
    · subst hk
      simp [EvictSequenceNameCurrValCache, bucket_index_erase_same] at hm
    · simp only [EvictSequenceNameCurrValCache, bucket_index_erase_other _ hk] at hm
      exact ih hm

/-- With a collision-free hash, a cached key is listed under its namespace and under its
sequence name. -/
theorem cached_key_listed {key_hash : String × String → Nat}
    (hinj : Function.Injective key_hash) {c : SequenceCatalog} (hr : Reachable key_hash c)
    (ns nm : String) (hc : c.sequence_currval_cache.find (key_hash (ns, nm)) ≠ none) :
    key_hash (ns, nm) ∈ bucket c.namespace_hash_lists ns ∧
      key_hash (ns, nm) ∈ bucket c.sequence_name_hash_lists nm := by
  induction hr with
  | empty => exact absurd rfl hc
  | @insert c0 ns0 nm0 v _ ih =>
    by_cases hk : key_hash (ns, nm) = key_hash (ns0, nm0)
    · have hp := hinj hk
      simp only [Prod.mk.injEq] at hp
      obtain ⟨h1, h2⟩ := hp
      subst h1
      subst h2
      simp [InsertCurrValCache, bucket_push_back_same]
    · have hold : c0.sequence_currval_cache.find (key_hash (ns, nm)) ≠ none := by
        simpa only [InsertCurrValCache, find_assign_other _ _ hk] using hc
      obtain ⟨i1, i2⟩ := ih hold
      constructor
      · by_cases hn : ns = ns0
        · subst hn
          simp only [InsertCurrValCache, bucket_push_back_same]
          exact List.mem_append_left _ i1
        · simp only [InsertCurrValCache, bucket_push_back_other _ _ hn]
          exact i1
      · by_cases hn : nm = nm0
        · subst hn
          simp only [InsertCurrValCache, bucket_push_back_same]
          exact List.mem_append_left _ i2
        · simp only [InsertCurrValCache, bucket_push_back_other _ _ hn]
          exact i2
  | @evictNamespace c0 ns0 _ ih =>
    rw [cache_evictNamespace] at hc
    have hold : c0.sequence_currval_cache.find (key_hash (ns, nm)) ≠ none :=
      fun e => hc (find_eraseAll_of_find_none _ _ _ e)
    obtain ⟨i1, i2⟩ := ih hold
    have hn : ns ≠ ns0 := by
      intro e
      subst e
      exact hc (find_eraseAll_of_mem _ _ _ i1)
    constructor
    · simp only [EvictNamespaceCurrValCache, bucket_index_erase_other _ hn]
      exact i1
    · exact i2
  | @evictSequenceName c0 nm0 _ ih =>
    rw [cache_evictSequenceName] at hc
    have hold : c0.sequence_currval_cache.find (key_hash (ns, nm)) ≠ none :=
      fun e => hc (find_eraseAll_of_find_none _ _ _ e)
    obtain ⟨i1, i2⟩ := ih hold
    have hn : nm ≠ nm0 := by
      intro e
      subst e
      exact hc (find_eraseAll_of_mem _ _ _ i2)
    constructor
    · exact i1
    · simp only [EvictSequenceNameCurrValCache, bucket_index_erase_other _ hn]
      exact i2

/-! ## The key hash `pairCode` has no collisions -/

theorem char_toNat_injective : Function.Injective Char.toNat :=
  fun _ _ h => Char.ext (UInt32.ext h)

theorem codeList_injective : Function.Injective codeList := by
  intro l
  induction l with
  | nil =>
    intro l' h
    cases l' with
    | nil => rfl
    | cons b l' => simp [codeList] at h
  | cons a l ih =>
    intro l' h
    cases l' with
    | nil => simp [codeList] at h
    | cons b l' =>
      simp only [codeList, add_left_inj, Nat.pair_eq_pair] at h
      rw [h.1, ih h.2]

theorem codeString_injective : Function.Injective codeString := by
  intro s t h
  exact String.ext (List.map_injective_iff.mpr char_toNat_injective (codeList_injective h))

theorem pairCode_injective : Function.Injective pairCode := by
  rintro ⟨a, b⟩ ⟨c, d⟩ h
  simp only [pairCode, Nat.pair_eq_pair] at h
  rw [codeString_injective h.1, codeString_injective h.2]

theorem scenarioCache_reachable : Reachable pairCode scenarioCache :=
  .insert "nsB" "seq1" 9 (.insert "nsA" "seq2" 7 (.insert "nsA" "seq1" 5 .empty))

/-! ## Repeated insertion -/

theorem insertRepeatedly_snoc (key_hash : String × String → Nat) (c : SequenceCatalog)
    (ns nm : String) (vs : List Int) (v : Int) :
    insertRepeatedly key_hash c ns nm (vs ++ [v]) =
      InsertCurrValCache key_hash (insertRepeatedly key_hash c ns nm vs) ns nm v := by
  simp [insertRepeatedly, List.foldl_append]

/-- Each of `n` insertions of one pair appends the key of the pair to both of its buckets. -/
theorem buckets_insertRepeatedly (key_hash : String × String → Nat) (c : SequenceCatalog)
    (ns nm : String) (vs : List Int) :
    bucket (insertRepeatedly key_hash c ns nm vs).namespace_hash_lists ns =
        bucket c.namespace_hash_lists ns ++ List.replicate vs.length (key_hash (ns, nm)) ∧
      bucket (insertRepeatedly key_hash c ns nm vs).sequence_name_hash_lists nm =
        bucket c.sequence_name_hash_lists nm ++
          List.replicate vs.length (key_hash (ns, nm)) := by
  induction vs using List.reverseRecOn with
  | nil => simp [insertRepeatedly]
  | append_singleton vs v ih =>
    rw [insertRepeatedly_snoc]
    simp only [InsertCurrValCache, bucket_push_back_same, ih.1, ih.2, List.length_append,
      List.length_singleton, List.replicate_succ', List.append_assoc, and_self]

/-! ## Claims on the cache accessors -/

/-- C2 (as the code behaves): `InsertCurrValCache` does not de-duplicate. For every cache state
and every pair, `n + 1` calls with that pair append the key of the pair `n + 1` times to the
bucket of the namespace and to the bucket of the sequence name, so the number of occurrences of
the key in each bucket grows by `n + 1`; the cache itself holds the value of the last call. -/
theorem InsertCurrValCache_repeated_appends (key_hash : String × String → Nat)
    (c : SequenceCatalog) (ns nm : String) (vs : List Int) (v : Int) :
    (bucket (insertRepeatedly key_hash c ns nm (vs ++ [v])).namespace_hash_lists ns).count
        (key_hash (ns, nm)) =
      (bucket c.namespace_hash_lists ns).count (key_hash (ns, nm)) + (vs.length + 1) ∧
    (bucket (insertRepeatedly key_hash c ns nm (vs ++ [v])).sequence_name_hash_lists nm).count
        (key_hash (ns, nm)) =
      (bucket c.sequence_name_hash_lists nm).count (key_hash (ns, nm)) + (vs.length + 1) ∧
    (insertRepeatedly key_hash c ns nm (vs ++ [v])).sequence_currval_cache.find
        (key_hash (ns, nm)) = some v := by
  obtain ⟨h1, h2⟩ := buckets_insertRepeatedly key_hash c ns nm (vs ++ [v])
  refine ⟨?_, ?_, ?_⟩
  · rw [h1, List.count_append, List.count_replicate_self]
    simp
  · rw [h2, List.count_append, List.count_replicate_self]
    simp
  · rw [insertRepeatedly_snoc]
    exact find_assign_same _ _ _

/-- C2 fails as stated: after two `InsertCurrValCache` calls for `(nsA, seq1)` on the empty
cache, the key of the pair occurs twice, not once, in the bucket of `nsA` and in the bucket of
`seq1`. -/
theorem InsertCurrValCache_twice_lists_key_twice :
    (bucket (insertRepeatedly pairCode SequenceCatalog.empty "nsA" "seq1"
        [5, 6]).namespace_hash_lists "nsA").count (pairCode ("nsA", "seq1")) = 2 ∧
    (bucket (insertRepeatedly pairCode SequenceCatalog.empty "nsA" "seq1"
        [5, 6]).sequence_name_hash_lists "seq1").count (pairCode ("nsA", "seq1")) = 2 := by
  obtain ⟨h1, h2⟩ := buckets_insertRepeatedly pairCode SequenceCatalog.empty "nsA" "seq1" [5, 6]
  rw [h1, h2]
  simp [SequenceCatalog.empty, bucket_empty]

/-- C3 (as the code behaves): `GetCachedCurrVal` returns a value exactly when the cache holds
an entry for the pair, which is exactly when `CheckCachedCurrValExistence` is true, and the
value is the cached one; when there is no entry the call dereferences the end iterator, which
is undefined behaviour, and in no case does it throw. -/
theorem GetCachedCurrVal_outcome (key_hash : String × String → Nat) (c : SequenceCatalog)
    (ns nm : String) :
    (∀ v, GetCachedCurrVal key_hash c ns nm = .returned v ↔
      c.sequence_currval_cache.find (key_hash (ns, nm)) = some v) ∧
    (CheckCachedCurrValExistence key_hash c ns nm = true ↔
      ∃ v, GetCachedCurrVal key_hash c ns nm = .returned v) ∧
    (CheckCachedCurrValExistence key_hash c ns nm = false ↔
      GetCachedCurrVal key_hash c ns nm = .undefinedBehaviour) ∧
    (∀ e, GetCachedCurrVal key_hash c ns nm ≠ .thrown e) := by
  simp only [GetCachedCurrVal, CheckCachedCurrValExistence]
  cases h : c.sequence_currval_cache.find (key_hash (ns, nm)) <;> simp

/-- C3 fails as stated: on the empty cache `CheckCachedCurrValExistence` is false and
`GetCachedCurrVal` does not fail with an exception, its outcome is undefined behaviour. -/
theorem GetCachedCurrVal_empty_undefined :
    CheckCachedCurrValExistence pairCode SequenceCatalog.empty "nsA" "seq1" = false ∧
    GetCachedCurrVal pairCode SequenceCatalog.empty "nsA" "seq1" = .undefinedBehaviour ∧
    ¬ ∃ e, GetCachedCurrVal pairCode SequenceCatalog.empty "nsA" "seq1" = .thrown e := by
  refine ⟨rfl, rfl, ?_⟩
  rintro ⟨e, he⟩
  cases he

/-- C4 (as the code behaves): `GetCurrVal` never fails. On every object it returns the content
of `seq_prev_val`; on a freshly constructed object that is the content the constructor left
in place, whatever the constructor arguments. -/
theorem GetCurrVal_returns_seq_prev_val (o : SequenceCatalogObject) (seqoid dboid : Nat)
    (name : String) (seqstart seqincrement seqmax seqmin : Int) (seqcycle : Bool)
    (seqval : Int) (txn : Nat) (stale_cache stale_prev_val : Int) :
    o.GetCurrVal = .returned o.seq_prev_val ∧
    (SequenceCatalogObject.construct seqoid dboid name seqstart seqincrement seqmax seqmin
      seqcycle seqval txn stale_cache stale_prev_val).GetCurrVal = .returned stale_prev_val :=
  ⟨rfl, rfl⟩

/-- C4 fails as stated: `GetCurrVal` on a freshly constructed object, on which `GetNextVal`
was never called, returns a value (here the stale content 42 of `seq_prev_val`). -/
theorem GetCurrVal_fresh_returns :
    (SequenceCatalogObject.construct 1 1 "seq" 1 1 10 1 false 0 0 0 42).GetCurrVal =
      .returned 42 := rfl

/-- C5: after `InsertCurrValCache(namespace, name, v)`, on any cache state,
`CheckCachedCurrValExistence(namespace, name)` is true and `GetCachedCurrVal(namespace, name)`
returns `v`; after a second insert with `v2` it returns `v2`. -/
theorem InsertCurrValCache_then_get (key_hash : String × String → Nat) (c : SequenceCatalog)
    (ns nm : String) (v v1 v2 : Int) :
    CheckCachedCurrValExistence key_hash (InsertCurrValCache key_hash c ns nm v) ns nm = true ∧
    GetCachedCurrVal key_hash (InsertCurrValCache key_hash c ns nm v) ns nm = .returned v ∧
    GetCachedCurrVal key_hash
      (InsertCurrValCache key_hash (InsertCurrValCache key_hash c ns nm v1) ns nm v2) ns nm =
      .returned v2 := by
  simp [CheckCachedCurrValExistence, GetCachedCurrVal, InsertCurrValCache, find_assign_same]

/-! ## Claims on eviction -/

/-- C6: with a collision-free key hash and a reachable cache state, evicting namespace `nsA`
leaves every entry of another namespace `nsB` in the cache with the value it had:
`CheckCachedCurrValExistence` stays true and `GetCachedCurrVal` returns the same value. -/
theorem EvictNamespaceCurrValCache_keeps_other_namespaces (key_hash : String × String → Nat)
    (hinj : Function.Injective key_hash) (c : SequenceCatalog) (hr : Reachable key_hash c)
    (nsA nsB nm : String) (hne : nsB ≠ nsA) (v : Int)
    (hv : c.sequence_currval_cache.find (key_hash (nsB, nm)) = some v) :
    (EvictNamespaceCurrValCache c nsA).sequence_currval_cache.find (key_hash (nsB, nm)) =
      some v ∧
    CheckCachedCurrValExistence key_hash (EvictNamespaceCurrValCache c nsA) nsB nm = true ∧
    GetCachedCurrVal key_hash (EvictNamespaceCurrValCache c nsA) nsB nm = .returned v := by
  have hkeep : (EvictNamespaceCurrValCache c nsA).sequence_currval_cache.find
      (key_hash (nsB, nm)) = some v := by
    rw [cache_evictNamespace, find_eraseAll_of_not_mem _ _ _ ?_, hv]
    intro hm
    obtain ⟨nm', he⟩ := namespace_bucket_keys hr nsA _ hm
    have hp := hinj he
    simp only [Prod.mk.injEq] at hp
    exact hne hp.1
  refine ⟨hkeep, ?_, ?_⟩
  · simp only [CheckCachedCurrValExistence, hkeep]
    simp
  · simp only [GetCachedCurrVal, hkeep]

/-- C6 at the scenario `(nsA, seq1) = 5`, `(nsA, seq2) = 7`, `(nsB, seq1) = 9`: after the
eviction of `nsA` the entry `(nsB, seq1)` is still cached with the value 9. -/
theorem EvictNamespaceCurrValCache_keeps_other_namespaces_scenario :
    Function.Injective pairCode ∧ Reachable pairCode scenarioCache ∧ "nsB" ≠ "nsA" ∧
    scenarioCache.sequence_currval_cache.find (pairCode ("nsB", "seq1")) = some 9 ∧
    ((EvictNamespaceCurrValCache scenarioCache "nsA").sequence_currval_cache.find
        (pairCode ("nsB", "seq1")) = some 9 ∧
      CheckCachedCurrValExistence pairCode (EvictNamespaceCurrValCache scenarioCache "nsA")
        "nsB" "seq1" = true ∧
      GetCachedCurrVal pairCode (EvictNamespaceCurrValCache scenarioCache "nsA")
        "nsB" "seq1" = .returned 9) :=
  ⟨pairCode_injective, scenarioCache_reachable, by decide, find_assign_same _ _ _,
    EvictNamespaceCurrValCache_keeps_other_namespaces pairCode pairCode_injective scenarioCache
      scenarioCache_reachable "nsA" "nsB" "seq1" (by decide) 9 (find_assign_same _ _ _)⟩

/-- C7: with a collision-free key hash and a reachable cache state, after
`EvictNamespaceCurrValCache(ns)` no pair of namespace `ns` is cached
(`CheckCachedCurrValExistence(ns, name)` is false for every name) and
`namespace_hash_lists` has no bucket for `ns`. -/
theorem EvictNamespaceCurrValCache_complete (key_hash : String × String → Nat)
    (hinj : Function.Injective key_hash) (c : SequenceCatalog) (hr : Reachable key_hash c)
    (ns : String) :
    (∀ nm, CheckCachedCurrValExistence key_hash (EvictNamespaceCurrValCache c ns) ns nm =
      false) ∧
    (EvictNamespaceCurrValCache c ns).namespace_hash_lists.find ns = none := by
  refine ⟨fun nm => ?_, find_index_erase_same _ _⟩
  have hgone : (EvictNamespaceCurrValCache c ns).sequence_currval_cache.find
      (key_hash (ns, nm)) = none := by
    rw [cache_evictNamespace]
    by_cases hc : c.sequence_currval_cache.find (key_hash (ns, nm)) = none
    · exact find_eraseAll_of_find_none _ _ _ hc
    · exact find_eraseAll_of_mem _ _ _ (cached_key_listed hinj hr ns nm hc).1
  simp only [CheckCachedCurrValExistence, hgone]
  simp

/-- C7 at the scenario cache: after the eviction of `nsA` neither `(nsA, seq1)` nor any other
pair of `nsA` is cached, and `nsA` has no bucket. -/
theorem EvictNamespaceCurrValCache_complete_scenario :
    Function.Injective pairCode ∧ Reachable pairCode scenarioCache ∧
    ((∀ nm, CheckCachedCurrValExistence pairCode (EvictNamespaceCurrValCache scenarioCache "nsA")
        "nsA" nm = false) ∧
      (EvictNamespaceCurrValCache scenarioCache "nsA").namespace_hash_lists.find "nsA" = none) :=
  ⟨pairCode_injective, scenarioCache_reachable,
    EvictNamespaceCurrValCache_complete pairCode pairCode_injective scenarioCache
      scenarioCache_reachable "nsA"⟩

/-- C8: with a collision-free key hash and a reachable cache state, after
`EvictSequenceNameCurrValCache(name)` no pair with that sequence name is cached, in any
namespace (`CheckCachedCurrValExistence(ns, name)` is false for every `ns`), and
`sequence_name_hash_lists` has no bucket for `name`. -/
theorem EvictSequenceNameCurrValCache_complete (key_hash : String × String → Nat)
    (hinj : Function.Injective key_hash) (c : SequenceCatalog) (hr : Reachable key_hash c)
    (nm : String) :
    (∀ ns, CheckCachedCurrValExistence key_hash (EvictSequenceNameCurrValCache c nm) ns nm =
      false) ∧
    (EvictSequenceNameCurrValCache c nm).sequence_name_hash_lists.find nm = none := by
  refine ⟨fun ns => ?_, find_index_erase_same _ _⟩
  have hgone : (EvictSequenceNameCurrValCache c nm).sequence_currval_cache.find
      (key_hash (ns, nm)) = none := by
    rw [cache_evictSequenceName]
    by_cases hc : c.sequence_currval_cache.find (key_hash (ns, nm)) = none
    · exact find_eraseAll_of_find_none _ _ _ hc
    · exact find_eraseAll_of_mem _ _ _ (cached_key_listed hinj hr ns nm hc).2
  simp only [CheckCachedCurrValExistence, hgone]
  simp

/-- C8 at the scenario cache: after the eviction of `seq1` the name is cached in no namespace
and has no bucket. -/
theorem EvictSequenceNameCurrValCache_complete_scenario :
    Function.Injective pairCode ∧ Reachable pairCode scenarioCache ∧
    ((∀ ns, CheckCachedCurrValExistence pairCode
        (EvictSequenceNameCurrValCache scenarioCache "seq1") ns "seq1" = false) ∧
      (EvictSequenceNameCurrValCache scenarioCache "seq1").sequence_name_hash_lists.find
        "seq1" = none) :=
  ⟨pairCode_injective, scenarioCache_reachable,
    EvictSequenceNameCurrValCache_complete pairCode pairCode_injective scenarioCache
      scenarioCache_reachable "seq1"⟩

/-- C9: with a collision-free key hash and a reachable cache state, evicting the sequence name
`name` leaves every entry `(ns, other)` with `other ≠ name` in the cache with the value it
had: `CheckCachedCurrValExistence` stays true and `GetCachedCurrVal` returns the same value. -/
theorem EvictSequenceNameCurrValCache_keeps_other_names (key_hash : String × String → Nat)
    (hinj : Function.Injective key_hash) (c : SequenceCatalog) (hr : Reachable key_hash c)
    (name ns other : String) (hne : other ≠ name) (v : Int)
    (hv : c.sequence_currval_cache.find (key_hash (ns, other)) = some v) :
    (EvictSequenceNameCurrValCache c name).sequence_currval_cache.find (key_hash (ns, other)) =
      some v ∧
    CheckCachedCurrValExistence key_hash (EvictSequenceNameCurrValCache c name) ns other =
      true ∧
    GetCachedCurrVal key_hash (EvictSequenceNameCurrValCache c name) ns other = .returned v := by
  have hkeep : (EvictSequenceNameCurrValCache c name).sequence_currval_cache.find
      (key_hash (ns, other)) = some v := by
    rw [cache_evictSequenceName, find_eraseAll_of_not_mem _ _ _ ?_, hv]
    intro hm
    obtain ⟨ns', he⟩ := sequence_name_bucket_keys hr name _ hm
    have hp := hinj he
    simp only [Prod.mk.injEq] at hp
    exact hne hp.2
  refine ⟨hkeep, ?_, ?_⟩
  · simp only [CheckCachedCurrValExistence, hkeep]
    simp
  · simp only [GetCachedCurrVal, hkeep]

/-- The entry `(nsA, seq2)` of the scenario cache holds 7. -/
theorem scenarioCache_find_nsA_seq2 :
    scenarioCache.sequence_currval_cache.find (pairCode ("nsA", "seq2")) = some 7 := by
  have hk : pairCode ("nsA", "seq2") ≠ pairCode ("nsB", "seq1") := by decide
  unfold scenarioCache
  simp only [InsertCurrValCache]
  rw [find_assign_other _ _ hk, find_assign_same]

/-- C9 at the scenario cache: after the eviction of `seq1` the entry `(nsA, seq2)` is still
cached with the value 7. -/
theorem EvictSequenceNameCurrValCache_keeps_other_names_scenario :
    Function.Injective pairCode ∧ Reachable pairCode scenarioCache ∧ "seq2" ≠ "seq1" ∧
    scenarioCache.sequence_currval_cache.find (pairCode ("nsA", "seq2")) = some 7 ∧
    ((EvictSequenceNameCurrValCache scenarioCache "seq1").sequence_currval_cache.find
        (pairCode ("nsA", "seq2")) = some 7 ∧
      CheckCachedCurrValExistence pairCode (EvictSequenceNameCurrValCache scenarioCache "seq1")
        "nsA" "seq2" = true ∧
      GetCachedCurrVal pairCode (EvictSequenceNameCurrValCache scenarioCache "seq1")
        "nsA" "seq2" = .returned 7) :=
  ⟨pairCode_injective, scenarioCache_reachable, by decide, scenarioCache_find_nsA_seq2,
    EvictSequenceNameCurrValCache_keeps_other_names pairCode pairCode_injective scenarioCache
      scenarioCache_reachable "seq1" "nsA" "seq2" (by decide) 7 scenarioCache_find_nsA_seq2⟩

/-! ## Oid allocation -/

theorem or_mask_injective {c c' mask : Nat} (hd : c &&& mask = 0) (hd' : c' &&& mask = 0)
    (he : c ||| mask = c' ||| mask) : c = c' := by
  apply Nat.eq_of_testBit_eq
  intro i
  have h1 := congrArg (fun n => Nat.testBit n i) hd
  have h2 := congrArg (fun n => Nat.testBit n i) hd'
  have h3 := congrArg (fun n => Nat.testBit n i) he
  simp only [Nat.testBit_and, Nat.testBit_or, Nat.zero_testBit] at h1 h2 h3
  revert h1 h2 h3
  cases c.testBit i <;> cases c'.testBit i <;> cases mask.testBit i <;> simp

theorem or_mask_and_mask (c mask : Nat) : (c ||| mask) &&& mask = mask := by
  apply Nat.eq_of_testBit_eq
  intro i
  simp only [Nat.testBit_and, Nat.testBit_or]
  cases c.testBit i <;> cases mask.testBit i <;> rfl

/-- C10: for every counter value `c` of `oid_t` and every mask of `oid_t`, `GetNextOid` returns
`c | SEQUENCE_OID_MASK`, in which every bit of the mask is set, and advances the counter by
one (in `oid_t` arithmetic: the last counter value is followed by 0); two calls at distinct
counter values that share no bit with the mask return distinct identifiers. -/
theorem GetNextOid_tagged_and_fresh (oid_bits SEQUENCE_OID_MASK c : Nat)
    (hm : SEQUENCE_OID_MASK < 2 ^ oid_bits) (hc : c < 2 ^ oid_bits) :
    (GetNextOid oid_bits SEQUENCE_OID_MASK c).1 = c ||| SEQUENCE_OID_MASK ∧
    (GetNextOid oid_bits SEQUENCE_OID_MASK c).1 &&& SEQUENCE_OID_MASK = SEQUENCE_OID_MASK ∧
    (GetNextOid oid_bits SEQUENCE_OID_MASK c).2 = (if c + 1 = 2 ^ oid_bits then 0 else c + 1) ∧
    (∀ c', c' < 2 ^ oid_bits → c' ≠ c → c &&& SEQUENCE_OID_MASK = 0 →
      c' &&& SEQUENCE_OID_MASK = 0 →
      (GetNextOid oid_bits SEQUENCE_OID_MASK c').1 ≠
        (GetNextOid oid_bits SEQUENCE_OID_MASK c).1) := by
  have hid : ∀ n, n < 2 ^ oid_bits →
      (GetNextOid oid_bits SEQUENCE_OID_MASK n).1 = n ||| SEQUENCE_OID_MASK := fun n hn =>
    Nat.mod_eq_of_lt (Nat.or_lt_two_pow hn hm)
  refine ⟨hid c hc, ?_, ?_, ?_⟩
  · rw [hid c hc, or_mask_and_mask]
  · show (c + 1) % 2 ^ oid_bits = _
    split
    · next h => rw [h, Nat.mod_self]
    · next h => exact Nat.mod_eq_of_lt (by omega)
  · intro c' hc' hne hd hd' he
    rw [hid c hc, hid c' hc'] at he
    exact hne (or_mask_injective hd' hd he)

/-- C10 for a 32-bit `oid_t` with the top bit as mask: the call at counter 5 returns
`5 | 2^31`, moves the counter to 6, and its identifier differs from the one handed out at
counter 6. -/
theorem GetNextOid_tagged_and_fresh_at_5 :
    2 ^ 31 < 2 ^ 32 ∧ 5 < 2 ^ 32 ∧
    ((GetNextOid 32 (2 ^ 31) 5).1 = 5 ||| 2 ^ 31 ∧
      (GetNextOid 32 (2 ^ 31) 5).1 &&& 2 ^ 31 = 2 ^ 31 ∧
      (GetNextOid 32 (2 ^ 31) 5).2 = (if 5 + 1 = 2 ^ 32 then 0 else 5 + 1) ∧
      (∀ c', c' < 2 ^ 32 → c' ≠ 5 → 5 &&& 2 ^ 31 = 0 → c' &&& 2 ^ 31 = 0 →
        (GetNextOid 32 (2 ^ 31) c').1 ≠ (GetNextOid 32 (2 ^ 31) 5).1)) :=
  ⟨by norm_num, by norm_num, GetNextOid_tagged_and_fresh 32 (2 ^ 31) 5 (by norm_num)
    (by norm_num)⟩

/-! ## The NextVal algorithm -/

theorem GetNextVal_fresh (d : SequenceDefinition) (hc : d.current = none) :
    GetNextVal d = (.ok d.start, { d with current := some d.start }) := by
  simp [GetNextVal, hc]

/-- A call whose candidate stays within the bound in the direction of travel returns the
candidate and persists it. -/
theorem GetNextVal_candidate (d : SequenceDefinition) (p : Int) (hc : d.current = some p)
    (hmax : 0 < d.increment → p + d.increment ≤ d.max)
    (hmin : d.increment < 0 → d.min ≤ p + d.increment) :
    GetNextVal d = (.ok (p + d.increment), { d with current := some (p + d.increment) }) := by
  have h1 : ¬ (d.increment > 0 ∧ p + d.increment > d.max) := fun h => by
    have := hmax h.1
    omega
  have h2 : ¬ (d.increment < 0 ∧ p + d.increment < d.min) := fun h => by
    have := hmin h.1
    omega
  simp only [GetNextVal, hc, if_neg h1, if_neg h2]

/-- From the current value `p`, `m` calls whose last candidate stays within the bound in the
direction of travel return `p + increment`, ..., `p + m * increment`. -/
theorem nextValRun_progression (m : Nat) (d : SequenceDefinition) (p : Int)
    (hc : d.current = some p)
    (hmax : 0 < d.increment → p + m * d.increment ≤ d.max)
    (hmin : d.increment < 0 → d.min ≤ p + m * d.increment) :
    (nextValRun d m).1 =
      (List.range m).map (fun j : Nat => Except.ok (p + ((j : Int) + 1) * d.increment)) := by
  induction m generalizing d p with
  | zero => rfl
  | succ m ih =>
    have hstep := GetNextVal_candidate d p hc
      (fun h => by
        have h1 := hmax h
        have h2 : (0 : Int) ≤ m * d.increment := by positivity
        push_cast at h1
        linarith)
      (fun h => by
        have h1 := hmin h
        have h2 : (m : Int) * d.increment ≤ 0 :=
          mul_nonpos_of_nonneg_of_nonpos (by positivity) h.le
        push_cast at h1
        linarith)
    have hrest := ih { d with current := some (p + d.increment) } (p + d.increment) rfl
      (fun h => by
        have h1 := hmax h
        push_cast at h1
        show p + d.increment + m * d.increment ≤ d.max
        linarith)
      (fun h => by
        have h1 := hmin h
        push_cast at h1
        show d.min ≤ p + d.increment + m * d.increment
        linarith)
    simp only [nextValRun, hstep, hrest, List.range_succ_eq_map, List.map_cons, List.map_map]
    congr 1
    · simp
    · apply List.map_congr_left
      intro j _
      simp only [Function.comp, Nat.cast_succ]
      congr 1
      ring

theorem GetNextVal_cycle (d : SequenceDefinition) : (GetNextVal d).2.cycle = d.cycle := by
  unfold GetNextVal
  cases d.current with
  | none => rfl
  | some p =>
    simp only
    split_ifs <;> rfl

theorem GetNextVal_cycling_no_failure (d : SequenceDefinition) (hcyc : d.cycle = true)
    (e : SequenceExhausted) : (GetNextVal d).1 ≠ .error e := by
  unfold GetNextVal
  cases d.current with
  | none => simp
  | some p =>
    simp only [hcyc, if_true]
    split_ifs <;> simp

theorem nextValRun_cycling_no_failure (n : Nat) (d : SequenceDefinition) (hcyc : d.cycle = true)
    (e : SequenceExhausted) : Except.error e ∉ (nextValRun d n).1 := by
  induction n generalizing d with
  | zero => simp [nextValRun]
  | succ n ih =>
    simp only [nextValRun, List.mem_cons, not_or]
    exact ⟨fun h => GetNextVal_cycling_no_failure d hcyc e h.symm,
      ih (GetNextVal d).2 (by rw [GetNextVal_cycle, hcyc])⟩

/-- C11 (on the NextVal algorithm of the specification): on a fresh sequence with increment `d`,
for every `k ≥ 1` such that `start + (k - 1) * d` lies within `[min, max]`, the first `k`
`GetNextVal` calls return `start`, `start + d`, ..., `start + (k - 1) * d` in that order; in
particular the first call returns `start`. This holds for every definition, so for every valid
non-cycling one. -/
theorem GetNextVal_arithmetic_progression (d : SequenceDefinition) (k : Nat) (hk : 1 ≤ k)
    (hfresh : d.current = none)
    (hlo : d.min ≤ d.start + ((k : Int) - 1) * d.increment)
    (hhi : d.start + ((k : Int) - 1) * d.increment ≤ d.max) :
    (nextValRun d k).1 =
      (List.range k).map (fun i : Nat => Except.ok (d.start + (i : Int) * d.increment)) ∧
    (GetNextVal d).1 = .ok d.start := by
  obtain ⟨m, rfl⟩ : ∃ m, k = m + 1 := ⟨k - 1, by omega⟩
  have hfirst := GetNextVal_fresh d hfresh
  refine ⟨?_, by rw [hfirst]⟩
  have hrest := nextValRun_progression m { d with current := some d.start } d.start rfl
    (fun _ => by
      push_cast at hhi
      show d.start + m * d.increment ≤ d.max
      linarith)
    (fun _ => by
      push_cast at hlo
      show d.min ≤ d.start + m * d.increment
      linarith)
  simp only [nextValRun, hfirst, hrest, List.range_succ_eq_map, List.map_cons, List.map_map]
  have hhead : d.start = d.start + ((0 : Nat) : Int) * d.increment := by simp
  rw [← hhead]
  refine congrArg (List.cons (Except.ok d.start)) (List.map_congr_left fun j _ => ?_)
  simp only [Function.comp, Nat.cast_succ]

/-- C11 on the sequence with start 1, increment 2, bounds 1 and 10: the first three calls
return 1, 3, 5. -/
theorem GetNextVal_arithmetic_progression_1_3_5 :
    1 ≤ 3 ∧ (freshSequence 1 2 10 1 false).current = none ∧
    (freshSequence 1 2 10 1 false).min ≤
      (freshSequence 1 2 10 1 false).start +
        (((3 : Nat) : Int) - 1) * (freshSequence 1 2 10 1 false).increment ∧
    (freshSequence 1 2 10 1 false).start +
        (((3 : Nat) : Int) - 1) * (freshSequence 1 2 10 1 false).increment ≤
      (freshSequence 1 2 10 1 false).max ∧
    (nextValRun (freshSequence 1 2 10 1 false) 3).1 = [.ok 1, .ok 3, .ok 5] ∧
    ((nextValRun (freshSequence 1 2 10 1 false) 3).1 =
        (List.range 3).map (fun i : Nat =>
          Except.ok ((freshSequence 1 2 10 1 false).start +
            (i : Int) * (freshSequence 1 2 10 1 false).increment)) ∧
      (GetNextVal (freshSequence 1 2 10 1 false)).1 =
        .ok (freshSequence 1 2 10 1 false).start) :=
  ⟨by decide, rfl, by decide, by decide, rfl,
    GetNextVal_arithmetic_progression (freshSequence 1 2 10 1 false) 3 (by decide) rfl
      (by decide) (by decide)⟩

/-- C12 (on the NextVal algorithm of the specification): for a definition with `cycle = false`
whose candidate `previous + increment` exceeds `max` with a positive increment, or falls below
`min` with a negative one, `GetNextVal` fails with SequenceExhausted and leaves the definition,
hence the persisted current value, as it was; so every further call fails the same way. -/
theorem GetNextVal_exhausted_sticky (d : SequenceDefinition) (p : Int)
    (hcyc : d.cycle = false) (hcur : d.current = some p)
    (hex : (0 < d.increment ∧ d.max < p + d.increment) ∨
      (d.increment < 0 ∧ p + d.increment < d.min)) :
    (GetNextVal d).1 =
      .error (if 0 < d.increment then .reachedMaximum d.max else .reachedMinimum d.min) ∧
    (GetNextVal d).2 = d ∧
    (∀ n, nextValRun d n = (List.replicate n (GetNextVal d).1, d)) := by
  have hcall : GetNextVal d =
      (.error (if 0 < d.increment then .reachedMaximum d.max else .reachedMinimum d.min),
        d) := by
    rcases hex with ⟨h1, h2⟩ | ⟨h1, h2⟩
    · have hc : d.increment > 0 ∧ p + d.increment > d.max := ⟨h1, h2⟩
      simp [GetNextVal, hcur, hc, hcyc, h1]
    · have hn : ¬ (d.increment > 0 ∧ p + d.increment > d.max) := fun h => by omega
      have hc : d.increment < 0 ∧ p + d.increment < d.min := ⟨h1, h2⟩
      have h0 : ¬ 0 < d.increment := by omega
      simp only [GetNextVal, hcur, if_neg hn, if_pos hc, hcyc, if_neg h0]
      simp
  refine ⟨by rw [hcall], by rw [hcall], fun n => ?_⟩
  induction n with
  | zero => rfl
  | succ n ih =>
    simp only [nextValRun, List.replicate_succ]
    rw [hcall] at ih ⊢
    simp only [ih]

/-- C12 on the definition with start 1, increment 1, min 1, max 2, no cycling: the first two
calls return 1 and 2 and leave the current value 2; from there every call fails with
"reached maximum value 2" and the current value stays 2. -/
theorem GetNextVal_exhausted_sticky_1_2 :
    nextValRun (freshSequence 1 1 2 1 false) 2 =
      ([.ok 1, .ok 2], (sequenceAt 1 1 2 1 false 2)) ∧
    (sequenceAt 1 1 2 1 false 2).cycle = false ∧
    (sequenceAt 1 1 2 1 false 2).current = some 2 ∧
    ((GetNextVal (sequenceAt 1 1 2 1 false 2)).1 =
        .error (.reachedMaximum 2) ∧
      (GetNextVal (sequenceAt 1 1 2 1 false 2)).2 =
        (sequenceAt 1 1 2 1 false 2) ∧
      (∀ n, nextValRun (sequenceAt 1 1 2 1 false 2) n =
        (List.replicate n
          (GetNextVal (sequenceAt 1 1 2 1 false 2)).1,
          (sequenceAt 1 1 2 1 false 2)))) :=
  ⟨rfl, rfl, rfl,
    GetNextVal_exhausted_sticky (sequenceAt 1 1 2 1 false 2) 2 rfl rfl
      (Or.inl ⟨by decide, by decide⟩)⟩

/-- C13 (on the NextVal algorithm of the specification): for a definition with `cycle = true`, a
call whose candidate `previous + increment` exceeds `max` with a positive increment returns
`min`, one whose candidate falls below `min` with a negative increment returns `max`, each
persisting the returned value, and no call, single or repeated, fails. -/
theorem GetNextVal_cycling_wraps (d : SequenceDefinition) (hcyc : d.cycle = true) :
    (∀ p, d.current = some p → 0 < d.increment → d.max < p + d.increment →
      GetNextVal d = (.ok d.min, { d with current := some d.min })) ∧
    (∀ p, d.current = some p → d.increment < 0 → p + d.increment < d.min →
      GetNextVal d = (.ok d.max, { d with current := some d.max })) ∧
    (∀ e, (GetNextVal d).1 ≠ .error e) ∧
    (∀ n e, Except.error e ∉ (nextValRun d n).1) := by
  refine ⟨?_, ?_, GetNextVal_cycling_no_failure d hcyc,
    fun n e => nextValRun_cycling_no_failure n d hcyc e⟩
  · intro p hcur h1 h2
    have hc : d.increment > 0 ∧ p + d.increment > d.max := ⟨h1, h2⟩
    simp [GetNextVal, hcur, hc, hcyc]
  · intro p hcur h1 h2
    have hn : ¬ (d.increment > 0 ∧ p + d.increment > d.max) := fun h => by omega
    have hc : d.increment < 0 ∧ p + d.increment < d.min := ⟨h1, h2⟩
    simp only [GetNextVal, hcur, if_neg hn, if_pos hc, hcyc, if_true]

/-- C13 on the definition with start 1, increment 1, min 1, max 3, cycling: the calls on the
fresh sequence return 1, 2, 3, 1, 2, 3, 1, and the call at the current value 3 returns 1 and
persists it. -/
theorem GetNextVal_cycling_wraps_1_2_3 :
    (sequenceAt 1 1 3 1 true 3).cycle = true ∧
    (nextValRun (freshSequence 1 1 3 1 true) 7).1 =
      [.ok 1, .ok 2, .ok 3, .ok 1, .ok 2, .ok 3, .ok 1] ∧
    GetNextVal (sequenceAt 1 1 3 1 true 3) = (.ok 1, sequenceAt 1 1 3 1 true 1) ∧
    (∀ e, (GetNextVal (sequenceAt 1 1 3 1 true 3)).1 ≠ .error e) ∧
    (∀ n e, Except.error e ∉ (nextValRun (sequenceAt 1 1 3 1 true 3) n).1) :=
  ⟨rfl, rfl,
    (GetNextVal_cycling_wraps (sequenceAt 1 1 3 1 true 3) rfl).1 3 rfl (by decide) (by decide),
    (GetNextVal_cycling_wraps (sequenceAt 1 1 3 1 true 3) rfl).2.2⟩

/-! ## Reverse indexes and cached keys -/

theorem mem_bucket_push_back_of_mem (m : UnorderedMap String (List Nat)) (k k' : String)
    (x h : Nat) (hm : h ∈ bucket m k') : h ∈ bucket (m.push_back k x) k' := by
  by_cases hk : k' = k
  · subst hk
    rw [bucket_push_back_same]
    exact List.mem_append_left _ hm
  · rw [bucket_push_back_other m x hk]
    exact hm

theorem mem_bucket_of_mem_push_back (m : UnorderedMap String (List Nat)) (k k' : String)
    (x h : Nat) (hx : h ≠ x) (hm : h ∈ bucket (m.push_back k x) k') : h ∈ bucket m k' := by
  by_cases hk : k' = k
  · subst hk
    rw [bucket_push_back_same, List.mem_append, List.mem_singleton] at hm
    exact hm.resolve_right hx
  · rwa [bucket_push_back_other m x hk] at hm

theorem mem_bucket_of_mem_index_erase (m : UnorderedMap String (List Nat)) (k k' : String)
    (h : Nat) (hm : h ∈ bucket ((m.index [] k).2.erase k) k') : k' ≠ k ∧ h ∈ bucket m k' := by
  by_cases hk : k' = k
  · subst hk
    rw [bucket_index_erase_same] at hm
    cases hm
  · rw [bucket_index_erase_other m hk] at hm
    exact ⟨hk, hm⟩

theorem CachedKeysListed_empty (key_hash : String × String → Nat) :
    CachedKeysListed key_hash SequenceCatalog.empty :=
  fun _ hc => absurd rfl hc

theorem CachedKeysListed_insert (key_hash : String × String → Nat) (c : SequenceCatalog)
    (ns0 nm0 : String) (v : Int) (hl : CachedKeysListed key_hash c) :
    CachedKeysListed key_hash (InsertCurrValCache key_hash c ns0 nm0 v) := by
  intro h hc
  by_cases hk : h = key_hash (ns0, nm0)
  · refine ⟨ns0, nm0, hk, ?_, ?_⟩ <;>
      simp [InsertCurrValCache, bucket_push_back_same, hk]
  · have hold : c.sequence_currval_cache.find h ≠ none := by
      simpa only [InsertCurrValCache, find_assign_other _ _ hk] using hc
    obtain ⟨ns, nm, he, i1, i2⟩ := hl h hold
    exact ⟨ns, nm, he, mem_bucket_push_back_of_mem _ _ _ _ _ i1,
      mem_bucket_push_back_of_mem _ _ _ _ _ i2⟩

theorem CachedKeysListed_evictNamespace (key_hash : String × String → Nat)
    (c : SequenceCatalog) (ns0 : String) (hl : CachedKeysListed key_hash c) :
    CachedKeysListed key_hash (EvictNamespaceCurrValCache c ns0) := by
  intro h hc
  rw [cache_evictNamespace] at hc
  obtain ⟨ns, nm, he, i1, i2⟩ := hl h (fun e => hc (find_eraseAll_of_find_none _ _ _ e))
  have hn : ns ≠ ns0 := by
    intro e
    subst e
    exact hc (find_eraseAll_of_mem _ _ _ i1)
  refine ⟨ns, nm, he, ?_, i2⟩
  simp only [EvictNamespaceCurrValCache, bucket_index_erase_other _ hn]
  exact i1

theorem CachedKeysListed_evictSequenceName (key_hash : String × String → Nat)
    (c : SequenceCatalog) (nm0 : String) (hl : CachedKeysListed key_hash c) :
    CachedKeysListed key_hash (EvictSequenceNameCurrValCache c nm0) := by
  intro h hc
  rw [cache_evictSequenceName] at hc
  obtain ⟨ns, nm, he, i1, i2⟩ := hl h (fun e => hc (find_eraseAll_of_find_none _ _ _ e))
  have hn : nm ≠ nm0 := by
    intro e
    subst e
    exact hc (find_eraseAll_of_mem _ _ _ i2)
  refine ⟨ns, nm, he, i1, ?_⟩
  simp only [EvictSequenceNameCurrValCache, bucket_index_erase_other _ hn]
  exact i2

/-- With a collision-free hash, a key that is listed in a bucket of each reverse index is
cached. -/
theorem listed_twice_cached {key_hash : String × String → Nat}
    (hinj : Function.Injective key_hash) {c : SequenceCatalog} (hr : Reachable key_hash c)
    (ns nm : String) (h : Nat) (h1 : h ∈ bucket c.namespace_hash_lists ns)
    (h2 : h ∈ bucket c.sequence_name_hash_lists nm) :
    c.sequence_currval_cache.find h ≠ none := by
  induction hr with
  | empty => simp [SequenceCatalog.empty, bucket_empty] at h1
  | @insert c0 ns0 nm0 v _ ih =>
    by_cases hk : h = key_hash (ns0, nm0)
    · simp [InsertCurrValCache, hk, find_assign_same]
    · simp only [InsertCurrValCache, find_assign_other _ _ hk]
      exact ih (mem_bucket_of_mem_push_back _ _ _ _ _ hk h1)
        (mem_bucket_of_mem_push_back _ _ _ _ _ hk h2)
  | @evictNamespace c0 ns0 hr0 ih =>
    obtain ⟨hn, h1'⟩ := mem_bucket_of_mem_index_erase _ _ _ _ h1
    rw [cache_evictNamespace, find_eraseAll_of_not_mem _ _ _ ?_]
    · exact ih h1' h2
    · intro hm
      obtain ⟨a, ha⟩ := namespace_bucket_keys hr0 ns0 h hm
      obtain ⟨b, hb⟩ := namespace_bucket_keys hr0 ns h h1'
      have hp := hinj (ha.symm.trans hb)
      simp only [Prod.mk.injEq] at hp
      exact hn hp.1.symm
  | @evictSequenceName c0 nm0 hr0 ih =>
    obtain ⟨hn, h2'⟩ := mem_bucket_of_mem_index_erase _ _ _ _ h2
    rw [cache_evictSequenceName, find_eraseAll_of_not_mem _ _ _ ?_]
    · exact ih h1 h2'
    · intro hm
      obtain ⟨a, ha⟩ := sequence_name_bucket_keys hr0 nm0 h hm
      obtain ⟨b, hb⟩ := sequence_name_bucket_keys hr0 nm h h2'
      have hp := hinj (ha.symm.trans hb)
      simp only [Prod.mk.injEq] at hp
      exact hn hp.2.symm

theorem evictedNameCache_reachable : Reachable pairCode evictedNameCache :=
  .evictSequenceName "seq1" (.insert "nsA" "seq1" 5 .empty)

/-- C15 (as the code behaves): with a collision-free key hash, in every reachable cache state a
key that is stored both in a bucket of `namespace_hash_lists` and in a bucket of
`sequence_name_hash_lists` is present in `sequence_currval_cache`. A key stored in one index
only need not be cached: an eviction does not touch the buckets of the other index. -/
theorem reverse_indexes_jointly_list_cached_keys (key_hash : String × String → Nat)
    (hinj : Function.Injective key_hash) (c : SequenceCatalog) (hr : Reachable key_hash c) :
    ∀ ns nm h, h ∈ bucket c.namespace_hash_lists ns →
      h ∈ bucket c.sequence_name_hash_lists nm → c.sequence_currval_cache.find h ≠ none :=
  fun ns nm h h1 h2 => listed_twice_cached hinj hr ns nm h h1 h2

/-- C15 (as the code behaves) at the scenario cache. -/
theorem reverse_indexes_jointly_list_cached_keys_scenario :
    Function.Injective pairCode ∧ Reachable pairCode scenarioCache ∧
    (∀ ns nm h, h ∈ bucket scenarioCache.namespace_hash_lists ns →
      h ∈ bucket scenarioCache.sequence_name_hash_lists nm →
      scenarioCache.sequence_currval_cache.find h ≠ none) :=
  ⟨pairCode_injective, scenarioCache_reachable,
    reverse_indexes_jointly_list_cached_keys pairCode pairCode_injective scenarioCache
      scenarioCache_reachable⟩

/-- C15 fails as stated: after `(nsA, seq1) = 5` is inserted into the empty cache and the name
`seq1` is evicted, the state is reachable, the bucket of `nsA` still stores the key of
`(nsA, seq1)`, and the cache has no entry for that key. -/
theorem namespace_bucket_keeps_evicted_key :
    Reachable pairCode evictedNameCache ∧
    pairCode ("nsA", "seq1") ∈ bucket evictedNameCache.namespace_hash_lists "nsA" ∧
    evictedNameCache.sequence_currval_cache.find (pairCode ("nsA", "seq1")) = none := by
  refine ⟨evictedNameCache_reachable, ?_, ?_⟩
  · show pairCode ("nsA", "seq1") ∈
      bucket (UnorderedMap.push_back UnorderedMap.empty "nsA" (pairCode ("nsA", "seq1"))) "nsA"
    rw [bucket_push_back_same]
    simp
  · unfold evictedNameCache
    rw [cache_evictSequenceName]
    apply find_eraseAll_of_mem
    simp [InsertCurrValCache, bucket_push_back_same]

/-- C16: the exception of `ValidateSequenceArguments` names a violated invariant. The
MINVALUE/MAXVALUE reason is raised exactly when `min > max`; the zero-increment reason exactly
when `min ≤ max` and `increment = 0`; the START-below-MINVALUE reason exactly when `min ≤ max`,
`increment > 0` and `start < min`; the START-above-MAXVALUE reason exactly when `min ≤ max`,
`increment < 0` and `start > max`; each reason carries the offending values. -/
theorem ValidateSequenceArguments_reason (seq_increment seq_max seq_min seq_start : Int) :
    (ValidateSequenceArguments seq_increment seq_max seq_min seq_start =
        .error (.minGreaterThanMax seq_min seq_max) ↔ seq_min > seq_max) ∧
    (ValidateSequenceArguments seq_increment seq_max seq_min seq_start =
        .error .zeroIncrement ↔ seq_min ≤ seq_max ∧ seq_increment = 0) ∧
    (ValidateSequenceArguments seq_increment seq_max seq_min seq_start =
        .error (.startLessThanMin seq_start seq_min) ↔
      seq_min ≤ seq_max ∧ seq_increment > 0 ∧ seq_start < seq_min) ∧
    (ValidateSequenceArguments seq_increment seq_max seq_min seq_start =
        .error (.startGreaterThanMax seq_start seq_max) ↔
      seq_min ≤ seq_max ∧ seq_increment < 0 ∧ seq_start > seq_max) ∧
    (∀ e, ValidateSequenceArguments seq_increment seq_max seq_min seq_start = .error e →
      e = .minGreaterThanMax seq_min seq_max ∨ e = .zeroIncrement ∨
        e = .startLessThanMin seq_start seq_min ∨
        e = .startGreaterThanMax seq_start seq_max) := by
  unfold ValidateSequenceArguments
  by_cases h1 : seq_min > seq_max
  · have h1' : ¬ seq_min ≤ seq_max := by omega
    simp [h1, h1']
  have h1' : seq_min ≤ seq_max := by omega
  by_cases h2 : seq_increment = 0
  · simp [h1, h1', h2]
  by_cases h3 : seq_increment > 0 ∧ seq_start < seq_min
  · have h4 : ¬ seq_increment < 0 := by omega
    simp [h1, h1', h2, h3, h4]
  by_cases h4 : seq_increment < 0 ∧ seq_start > seq_max
  · have h5 : ¬ seq_increment > 0 := by omega
    simp only [if_neg h1, if_neg h2, if_neg h3, if_pos h4]
    simp [h1, h1', h2, h4, h5]
  · simp only [if_neg h1, if_neg h2, if_neg h3, if_neg h4]
    exact ⟨⟨fun h => (by cases h), fun h => absurd h h1⟩,
      ⟨fun h => (by cases h), fun h => absurd h.2 h2⟩,
      ⟨fun h => (by cases h), fun h => absurd h.2 h3⟩,
      ⟨fun h => (by cases h), fun h => absurd h.2 h4⟩, fun e h => (by cases h)⟩

/-- C17: every cached key is reachable from both reverse indexes (`CachedKeysListed`). The
property holds for the empty cache, each of `InsertCurrValCache`, `EvictNamespaceCurrValCache`
and `EvictSequenceNameCurrValCache` preserves it on any cache state, and so it holds in every
reachable cache state, for every key hash. -/
theorem CachedKeysListed_invariant (key_hash : String × String → Nat) :
    CachedKeysListed key_hash SequenceCatalog.empty ∧
    (∀ c ns nm v, CachedKeysListed key_hash c →
      CachedKeysListed key_hash (InsertCurrValCache key_hash c ns nm v)) ∧
    (∀ c ns, CachedKeysListed key_hash c →
      CachedKeysListed key_hash (EvictNamespaceCurrValCache c ns)) ∧
    (∀ c nm, CachedKeysListed key_hash c →
      CachedKeysListed key_hash (EvictSequenceNameCurrValCache c nm)) ∧
    (∀ c, Reachable key_hash c → ∀ h, c.sequence_currval_cache.find h ≠ none →
      ∃ ns nm, h = key_hash (ns, nm) ∧ h ∈ bucket c.namespace_hash_lists ns ∧
        h ∈ bucket c.sequence_name_hash_lists nm) := by
  refine ⟨CachedKeysListed_empty key_hash, CachedKeysListed_insert key_hash,
    CachedKeysListed_evictNamespace key_hash, CachedKeysListed_evictSequenceName key_hash, ?_⟩
  intro c hr
  induction hr with
  | empty => exact CachedKeysListed_empty key_hash
  | insert ns nm v _ ih => exact CachedKeysListed_insert key_hash _ ns nm v ih
  | evictNamespace ns _ ih => exact CachedKeysListed_evictNamespace key_hash _ ns ih
  | evictSequenceName nm _ ih => exact CachedKeysListed_evictSequenceName key_hash _ nm ih

/-- C18: the cache identifies an entry by its hash key alone. For two distinct pairs with the
same `key_hash` value and every cache state, after `InsertCurrValCache(ns1, nm1, v)` the call
`CheckCachedCurrValExistence(ns2, nm2)` is true and `GetCachedCurrVal(ns2, nm2)` returns `v`,
and after a following `EvictNamespaceCurrValCache(ns1)` the call
`CheckCachedCurrValExistence(ns2, nm2)` is false. -/
theorem colliding_pairs_share_entry (key_hash : String × String → Nat) (c : SequenceCatalog)
    (ns1 nm1 ns2 nm2 : String) (v : Int) (_hne : (ns1, nm1) ≠ (ns2, nm2))
    (hcol : key_hash (ns1, nm1) = key_hash (ns2, nm2)) :
    CheckCachedCurrValExistence key_hash (InsertCurrValCache key_hash c ns1 nm1 v) ns2 nm2 =
      true ∧
    GetCachedCurrVal key_hash (InsertCurrValCache key_hash c ns1 nm1 v) ns2 nm2 =
      .returned v ∧
    CheckCachedCurrValExistence key_hash
      (EvictNamespaceCurrValCache (InsertCurrValCache key_hash c ns1 nm1 v) ns1) ns2 nm2 =
      false := by
  have hfind : (InsertCurrValCache key_hash c ns1 nm1 v).sequence_currval_cache.find
      (key_hash (ns2, nm2)) = some v := by
    rw [← hcol]
    exact find_assign_same _ _ _
  have hgone : (EvictNamespaceCurrValCache (InsertCurrValCache key_hash c ns1 nm1 v)
      ns1).sequence_currval_cache.find (key_hash (ns2, nm2)) = none := by
    rw [cache_evictNamespace]
    apply find_eraseAll_of_mem
    rw [← hcol]
    simp [InsertCurrValCache, bucket_push_back_same]
  refine ⟨?_, ?_, ?_⟩
  · simp only [CheckCachedCurrValExistence, hfind]
    simp
  · simp only [GetCachedCurrVal, hfind]
  · simp only [CheckCachedCurrValExistence, hgone]
    simp

/-- C18 for the hash `lengthHash`, under which `(nsA, seq1)` and `(nsB, seq1)` share their key:
after `(nsA, seq1) = 5` is inserted into the empty cache, `(nsB, seq1)` is found with the value
5, and the eviction of `nsA` removes it. -/
theorem colliding_pairs_share_entry_lengthHash :
    (("nsA", "seq1") : String × String) ≠ ("nsB", "seq1") ∧
    lengthHash ("nsA", "seq1") = lengthHash ("nsB", "seq1") ∧
    (CheckCachedCurrValExistence lengthHash
        (InsertCurrValCache lengthHash SequenceCatalog.empty "nsA" "seq1" 5) "nsB" "seq1" =
        true ∧
      GetCachedCurrVal lengthHash
        (InsertCurrValCache lengthHash SequenceCatalog.empty "nsA" "seq1" 5) "nsB" "seq1" =
        .returned 5 ∧
      CheckCachedCurrValExistence lengthHash
        (EvictNamespaceCurrValCache
          (InsertCurrValCache lengthHash SequenceCatalog.empty "nsA" "seq1" 5) "nsA")
        "nsB" "seq1" = false) :=
  ⟨by decide, by decide,
    colliding_pairs_share_entry lengthHash SequenceCatalog.empty "nsA" "seq1" "nsB" "seq1" 5
      (by decide) (by decide)⟩

/-- C19: `ValidateSequenceArguments` bounds the start value on one side only. It returns
normally for every positive increment with `min ≤ max < start` and for every negative increment
with `start < min ≤ max`, for instance for increment 1, min 1, max 3, start 10 and for
increment -1, min 1, max 3, start 0; so an accepted start value need not lie in `[min, max]`. -/
theorem ValidateSequenceArguments_start_one_sided :
    (∀ seq_increment seq_max seq_min seq_start : Int, 0 < seq_increment → seq_min ≤ seq_max →
      seq_max < seq_start →
      ValidateSequenceArguments seq_increment seq_max seq_min seq_start = .ok ()) ∧
    (∀ seq_increment seq_max seq_min seq_start : Int, seq_increment < 0 → seq_min ≤ seq_max →
      seq_start < seq_min →
      ValidateSequenceArguments seq_increment seq_max seq_min seq_start = .ok ()) ∧
    ValidateSequenceArguments 1 3 1 10 = .ok () ∧
    ValidateSequenceArguments (-1) 3 1 0 = .ok () ∧
    ¬ ((1 : Int) ≤ 10 ∧ (10 : Int) ≤ 3) ∧ ¬ ((1 : Int) ≤ 0 ∧ (0 : Int) ≤ 3) := by
  refine ⟨?_, ?_, rfl, rfl, by decide, by decide⟩
  · intro i mx mn st h1 h2 h3
    have a1 : ¬ mn > mx := by omega
    have a2 : ¬ i = 0 := by omega
    have a3 : ¬ (i > 0 ∧ st < mn) := fun h => by omega
    have a4 : ¬ (i < 0 ∧ st > mx) := fun h => by omega
    simp only [ValidateSequenceArguments, if_neg a1, if_neg a2, if_neg a3, if_neg a4]
  · intro i mx mn st h1 h2 h3
    have a1 : ¬ mn > mx := by omega
    have a2 : ¬ i = 0 := by omega
    have a3 : ¬ (i > 0 ∧ st < mn) := fun h => by omega
    have a4 : ¬ (i < 0 ∧ st > mx) := fun h => by omega
    simp only [ValidateSequenceArguments, if_neg a1, if_neg a2, if_neg a3, if_neg a4]

end peloton.catalog
